import Mathlib

/-!
Verification of `src/ccmm/matching/frank_wolfe_matching.py` (cycle-consistent
model merging, Frank-Wolfe weight matching).  Python numeric tensors are
modelled over `ℚ`; dynamically shaped torch tensors used by `sinkhorn_knopp`
are modelled as `List (List ℚ)`, statically shaped linear algebra as
`Matrix (Fin n) (Fin n) ℚ`.  Python exceptions are modelled with `Except`.
-/

/-- Python exceptions raised (or raisable) by the module. -/
inductive PyErr : Type where
  | valueError : String → PyErr
  | keyError : String → PyErr
  | indexError : String → PyErr
  | unboundLocalError : PyErr
deriving DecidableEq

/-! ### sinkhorn_knopp (lines 461-501) -/

/-- `1e-16`, the additive shift used by `sinkhorn_knopp` to avoid division by zero. -/
def eps16 : ℚ := 1 / 10 ^ 16

/-- `torch.mv(M, v)`: matrix-vector product of a list matrix with a vector. -/
def mvL (M : List (List ℚ)) (v : List ℚ) : List ℚ :=
  M.map fun row => (List.zipWith (fun a b => a * b) row v).sum

/-- `torch.diag(s).mm(M)`: scale row `i` of `M` by `s i`. -/
def scaleRows (s : List ℚ) (M : List (List ℚ)) : List (List ℚ) :=
  List.zipWith (fun si row => row.map fun x => si * x) s M

/-- `M.mm(torch.diag(s))`: scale column `j` of `M` by `s j`. -/
def scaleCols (M : List (List ℚ)) (s : List ℚ) : List (List ℚ) :=
  M.map fun row => List.zipWith (fun x sj => x * sj) row s

/-- Number of columns of a list matrix (length of its first row). -/
def numColsL (M : List (List ℚ)) : ℕ := (M.headD []).length

/-- `M.t()`: transpose of a (rectangular) list matrix. -/
def transposeL (M : List (List ℚ)) : List (List ℚ) :=
  (List.range (numColsL M)).map fun j => M.map fun row => row.getD j 0

/-- `M.sum(dim=1)`: the row sums. -/
def rowSumsL (M : List (List ℚ)) : List ℚ := M.map List.sum

/-- `M.sum(dim=0)`: the column sums. -/
def colSumsL (M : List (List ℚ)) : List ℚ := (transposeL M).map List.sum

/-- `M.sum()`: sum of all entries. -/
def totalSumL (M : List (List ℚ)) : ℚ := (M.map List.sum).sum

/-- `1 / (v + 1e-16)` elementwise. -/
def recipShift (v : List ℚ) : List ℚ := v.map fun x => 1 / (x + eps16)

/-- `torch.all(M >= 0)`. -/
def allEntriesNonneg (M : List (List ℚ)) : Bool :=
  M.all fun row => row.all fun x => decide (0 ≤ x)

/-- `torch.all(torch.abs(v - 1) < tol)`. -/
def allCloseOne (v : List ℚ) (tol : ℚ) : Bool :=
  v.all fun s => decide (|s - 1| < tol)

/-- The `for _ in range(max_iterations)` loop of `sinkhorn_knopp` (lines 488-499).
The loop state carried across iterations is the matrix and `col_scale`
(`row_scale` is overwritten before being read at the top of each iteration). -/
def skLoop (tol : ℚ) : ℕ → List (List ℚ) → List ℚ → List (List ℚ)
  | 0, M, _ => M
  | fuel + 1, M, col_scale =>
    let row_scale := recipShift (mvL M col_scale)
    let M1 := scaleRows row_scale M
    let col_scale2 := recipShift (mvL (transposeL M1) row_scale)
    let M2 := scaleCols M1 col_scale2
    if allCloseOne (colSumsL M2) tol && allCloseOne (rowSumsL M2) tol then M2
    else skLoop tol fuel M2 col_scale2

/-- `sinkhorn_knopp(matrix, tol, max_iterations)` (lines 461-501).  The Python
defaults are `tol=1e-10`, `max_iterations=1000`; call sites below pass them
explicitly. -/
def sinkhorn_knopp (M : List (List ℚ)) (tol : ℚ) (max_iterations : ℕ) :
    Except PyErr (List (List ℚ)) :=
  if allEntriesNonneg M then
    if M.length ≠ numColsL M then Except.error (PyErr.valueError "Matrix must be square.")
    else
      let M0 := M.map fun row => row.map fun x => x / (totalSumL M + eps16)
      Except.ok (skLoop tol max_iterations M0 (List.replicate (numColsL M) 1))
  else Except.error (PyErr.valueError "Matrix contains negative values.")

/-- One rescaling pass exactly as the specification sentence describes it:
rows are divided by the current row sums, then columns by the current column
sums.  Used to compare the code's actual pass against the claimed one. -/
def sinkhorn_pass_claimed (M : List (List ℚ)) : List (List ℚ) :=
  let M1 := scaleRows ((rowSumsL M).map fun x => 1 / x) M
  scaleCols M1 ((colSumsL M1).map fun x => 1 / x)

/-- Concrete input exhibiting the sinkhorn scaling bug. -/
def sk_bug_input : List (List ℚ) := [[1, 2], [3, 4]]

/-- The matrix the code returns on `sk_bug_input` after one pass. -/
def sk_bug_result : List (List ℚ) :=
  (sinkhorn_knopp sk_bug_input (1 / 10 ^ 10) 1).toOption.getD []

/-! ### Tensor permutation algebra and gradients (lines 348-441), rank-2 case.
The claims under scrutiny concern rank-2 parameter tensors; `perm_rows` on a
rank-2 tensor is the einsum `ij,jk->ik`, i.e. the matrix product. -/

/-- `perm_rows(x, perm)` for a rank-2 tensor (lines 412-425): `perm @ x`. -/
def perm_rows {a b : ℕ} (x : Matrix (Fin a) (Fin b) ℚ) (perm : Matrix (Fin a) (Fin a) ℚ) :
    Matrix (Fin a) (Fin b) ℚ :=
  perm * x

/-- `compute_gradient_P_curr(Wa, Wb, P_prev)` (lines 348-371), rank-2 case:
`Wa @ perm_rows(Wb.T, P_prev)`, with `P_prev = None` replaced by the identity. -/
def compute_gradient_P_curr {r c : ℕ} (Wa Wb : Matrix (Fin r) (Fin c) ℚ)
    (P_prev : Option (Matrix (Fin c) (Fin c) ℚ)) : Matrix (Fin r) (Fin r) ℚ :=
  Wa * perm_rows Wb.transpose (P_prev.getD 1)

/-- `compute_gradient_P_prev(Wa, Wb, P_curr)` (lines 374-395), rank-2 case:
`Wa.T @ perm_rows(Wb, P_curr)`. -/
def compute_gradient_P_prev {r c : ℕ} (Wa Wb : Matrix (Fin r) (Fin c) ℚ)
    (P_curr : Matrix (Fin r) (Fin r) ℚ) : Matrix (Fin c) (Fin c) ℚ :=
  Wa.transpose * perm_rows Wb P_curr

/-- `perm_cols(x, perm)` for a rank-2 tensor (lines 428-441):
`(perm.T @ x.T).T = x @ perm`. -/
def perm_cols {a b : ℕ} (x : Matrix (Fin a) (Fin b) ℚ) (perm : Matrix (Fin b) (Fin b) ℚ) :
    Matrix (Fin a) (Fin b) ℚ :=
  (perm_rows x.transpose perm.transpose).transpose

/-- `compute_layer_similarity(Wa, Wb, P_curr, P_prev)` (lines 320-340), rank-2
case: `trace(Wa.T @ ((P_curr @ Wb) @ P_prev.T))`, with the column step skipped
when `P_prev` is `None`. -/
def compute_layer_similarity {r c : ℕ} (Wa Wb : Matrix (Fin r) (Fin c) ℚ)
    (P_curr : Matrix (Fin r) (Fin r) ℚ) (P_prev : Option (Matrix (Fin c) (Fin c) ℚ)) : ℚ :=
  Matrix.trace
    (Wa.transpose *
      (match P_prev with
      | some q => perm_cols (perm_rows Wb P_curr) q.transpose
      | none => perm_rows Wb P_curr))

/-- One layer entry of `layer_and_axes_to_perm`: the two parameter tensors and
the names of the row- and column-permutation acting on the layer (`none` when
the corresponding axis is unpermuted).  All matrices of a run are modelled at
one square size `n`. -/
structure FWLayer (n : ℕ) where
  Wa : Matrix (Fin n) (Fin n) ℚ
  Wb : Matrix (Fin n) (Fin n) ℚ
  rowPermId : Option String
  colPermId : Option String

/-- The row permutation used for a layer (line 224): `perm_matrices[row_perm_id]`,
or the identity when the id is `None`. -/
def rowPermOf {n : ℕ} (pm : String → Matrix (Fin n) (Fin n) ℚ) (L : FWLayer n) :
    Matrix (Fin n) (Fin n) ℚ :=
  match L.rowPermId with
  | some p => pm p
  | none => 1

/-- The column permutation used for a layer (line 228). -/
def colPermOf {n : ℕ} (pm : String → Matrix (Fin n) (Fin n) ℚ) (L : FWLayer n) :
    Matrix (Fin n) (Fin n) ℚ :=
  match L.colPermId with
  | some p => pm p
  | none => 1

/-- `gradients[id] += G` guarded by Python truthiness `if id:` (lines 233-236):
no update when the id is `None` or the empty string. -/
def addGrad {n : ℕ} (g : String → Matrix (Fin n) (Fin n) ℚ) (i : Option String)
    (G : Matrix (Fin n) (Fin n) ℚ) : String → Matrix (Fin n) (Fin n) ℚ :=
  match i with
  | some p => if p = "" then g else Function.update g p (g p + G)
  | none => g

/-- The body of the layer loop of `weight_matching_gradient_fn_layerwise`
(lines 213-236). -/
def layerGradStep {n : ℕ} (pm : String → Matrix (Fin n) (Fin n) ℚ)
    (g : String → Matrix (Fin n) (Fin n) ℚ) (L : FWLayer n) :
    String → Matrix (Fin n) (Fin n) ℚ :=
  addGrad (addGrad g L.rowPermId (compute_gradient_P_curr L.Wa L.Wb (some (colPermOf pm L))))
    L.colPermId (compute_gradient_P_prev L.Wa L.Wb (rowPermOf pm L))

/-- `weight_matching_gradient_fn_layerwise` (lines 202-238): fold the layer
loop over an initial all-zeros gradient table. -/
def weight_matching_gradient_fn_layerwise {n : ℕ} (pm : String → Matrix (Fin n) (Fin n) ℚ)
    (layers : List (FWLayer n)) : String → Matrix (Fin n) (Fin n) ℚ :=
  layers.foldl (layerGradStep pm) fun _ => 0

/-- Sum of the row-axis gradient contributions of the layers whose row
permutation is `p`. -/
def rowTermSum {n : ℕ} (pm : String → Matrix (Fin n) (Fin n) ℚ) (layers : List (FWLayer n))
    (p : String) : Matrix (Fin n) (Fin n) ℚ :=
  ((layers.filter fun L => decide (L.rowPermId = some p)).map fun L =>
    compute_gradient_P_curr L.Wa L.Wb (some (colPermOf pm L))).sum

/-- Sum of the column-axis gradient contributions of the layers whose column
permutation is `p`. -/
def colTermSum {n : ℕ} (pm : String → Matrix (Fin n) (Fin n) ℚ) (layers : List (FWLayer n))
    (p : String) : Matrix (Fin n) (Fin n) ℚ :=
  ((layers.filter fun L => decide (L.colPermId = some p)).map fun L =>
    compute_gradient_P_prev L.Wa L.Wb (rowPermOf pm L)).sum

/-! ### Permutation matrix dictionaries, update step, initializer -/

/-- A permutation-matrix value of the `perm_matrices` dict: its size and the
square matrix. -/
abbrev PMat : Type := (n : ℕ) × Matrix (Fin n) (Fin n) ℚ

/-- A source of `torch.rand(n, n)` draws, one per permutation name. -/
abbrev RandSrc : Type := String → (n : ℕ) → Matrix (Fin n) (Fin n) ℚ

/-- The `proj_grads` dict, indexed by permutation name and size. -/
abbrev ProjGrads : Type := String → (n : ℕ) → Matrix (Fin n) (Fin n) ℚ

/-- The sentinel names `{"P_final", "P_4"}` excluded from interpolation
(lines 163 and 449). -/
def fixed_perm_names : List String := ["P_final", "P_4"]

/-- `update_perm_matrices(perm_matrices, proj_grads, step_size)` (lines 444-458). -/
def update_perm_matrices (pm : List (String × PMat)) (proj : ProjGrads) (step_size : ℚ) :
    List (String × PMat) :=
  pm.map fun e =>
    if e.1 ∈ fixed_perm_names then e
    else (e.1, (⟨e.2.1, (1 - step_size) • e.2.2 + step_size • proj e.1 e.2.1⟩ : PMat))

/-- The `interpolated_perms` built by `line_search_step` (lines 158-167): the
same convex combination, with the fixed names kept as they are. -/
def line_search_interp (t : ℚ) (pm : List (String × PMat)) (proj : ProjGrads) :
    List (String × PMat) :=
  pm.map fun e =>
    if e.1 ∈ fixed_perm_names then e
    else (e.1, (⟨e.2.1, (1 - t) • e.2.2 + t • proj e.1 e.2.1⟩ : PMat))

/-- Read a statically sized matrix off as a list matrix. -/
def matrixToLists {n : ℕ} (M : Matrix (Fin n) (Fin n) ℚ) : List (List ℚ) :=
  (List.finRange n).map fun i => (List.finRange n).map fun j => M i j

/-- Rebuild a statically sized matrix from a list matrix of the same shape. -/
def listsToMatrix (n : ℕ) (L : List (List ℚ)) : Matrix (Fin n) (Fin n) ℚ :=
  Matrix.of fun i j => (L.getD i []).getD j 0

/-- Map a fallible function over a list, failing on the first error (the
semantics of a Python `for` loop that may raise). -/
def mapExcept {α β : Type} (f : α → Except PyErr β) : List α → Except PyErr (List β)
  | [] => Except.ok []
  | a :: l => do
    let b ← f a
    let r ← mapExcept f l
    pure (b :: r)

/-- `initialize_perm_matrices(perm_sizes, initialization_method)` (lines 126-134),
with the `torch.rand(n, n)` draws supplied by `rand`.  The `sinkhorn` branch
passes the Python defaults `tol=1e-10`, `max_iterations=1000`. -/
def initialize_perm_matrices (perm_sizes : List (String × ℕ)) (initialization_method : String)
    (rand : RandSrc) : Except PyErr (List (String × PMat)) :=
  if initialization_method = "identity" then
    Except.ok (perm_sizes.map fun e => (e.1, (⟨e.2, 1⟩ : PMat)))
  else if initialization_method = "random" then
    Except.ok (perm_sizes.map fun e => (e.1, (⟨e.2, rand e.1 e.2⟩ : PMat)))
  else if initialization_method = "sinkhorn" then
    mapExcept (fun e =>
      (sinkhorn_knopp (matrixToLists (rand e.1 e.2)) (1 / 10 ^ 10) 1000).map fun L =>
        (e.1, (⟨e.2, listsToMatrix e.2 L⟩ : PMat))) perm_sizes
  else Except.error (PyErr.valueError ("Unknown initialization method " ++ initialization_method))

/-- Membership in the Birkhoff polytope: non-negative entries, every row sum
and every column sum equal to 1. -/
def IsDoublyStochastic {n : ℕ} (M : Matrix (Fin n) (Fin n) ℚ) : Prop :=
  (∀ i j, 0 ≤ M i j) ∧ (∀ i, ∑ j, M i j = 1) ∧ (∀ j, ∑ i, M i j = 1)

instance {n : ℕ} (M : Matrix (Fin n) (Fin n) ℚ) : Decidable (IsDoublyStochastic M) :=
  inferInstanceAs (Decidable ((∀ i j, 0 ≤ M i j) ∧ (∀ i, ∑ j, M i j = 1) ∧ (∀ j, ∑ i, M i j = 1)))

/-! ### Multi-trial driver (lines 52-74).  The per-trial computation and the
external linear-assignment hardening are abstracted: a trial is its final
objective paired with its resulting state, and `harden` is the external
`solve_linear_assignment_problem` mapping applied to the winner. -/

/-- The body of the trial loop of `frank_wolfe_weight_matching` (lines 63-67):
`best_obj` starts at `0.0`, `best_perm_matrices` starts unassigned (`none`). -/
def best_step {α : Type} (acc : ℚ × Option (ℚ × α)) (t : ℚ × α) : ℚ × Option (ℚ × α) :=
  if t.1 > acc.1 then (t.1, some t) else acc

/-- Fold of `best_step` over the trial results, from `best_obj = 0.0` and an
unassigned best state. -/
def select_best_trial {α : Type} (trials : List (ℚ × α)) : ℚ × Option (ℚ × α) :=
  trials.foldl best_step ((0 : ℚ), none)

/-- `frank_wolfe_weight_matching`, lines 52-74, after the trials ran: pick the
best trial and harden it (line 69); reading `best_perm_matrices` when no trial
ever beat `best_obj = 0.0` raises `UnboundLocalError`. -/
def frank_wolfe_driver {α β : Type} (trials : List (ℚ × α)) (harden : α → β) :
    Except PyErr β :=
  match (select_best_trial trials).2 with
  | none => Except.error PyErr.unboundLocalError
  | some b => Except.ok (harden b.2)

/-! ### Trial-loop convergence control (lines 77-123).  The permutation state
evolves independently of the patience counter, so the sequence of `new_obj`
values is a function of the iteration index alone; the control flow of the
loop is modelled over that sequence. -/

/-- The improvement threshold `1e-6` (line 112). -/
def conv_tol : ℚ := 1 / 1000000

/-- Lines 112-116: the update of `(old_obj, patience_steps)` by a freshly
computed `new_obj`.  `old_obj` is replaced only when the improvement is at
least `conv_tol`. -/
def convStep (s : ℚ × ℕ) (new_obj : ℚ) : ℚ × ℕ :=
  if new_obj - s.1 < conv_tol then (s.1, s.2 + 1) else (new_obj, 0)

/-- The `(old_obj, patience_steps)` state before iteration `k`, starting from
`(0.0, 0)` (lines 82-83). -/
def convTrace (objs : ℕ → ℚ) : ℕ → ℚ × ℕ
  | 0 => ((0 : ℚ), (0 : ℕ))
  | n + 1 => convStep (convTrace objs n) (objs n)

/-- The value `new_obj` holds after `k` executed iterations (`none` when the
loop body never ran, in which case line 123 would raise `NameError`). -/
def lastObj (objs : ℕ → ℚ) : ℕ → Option ℚ
  | 0 => none
  | n + 1 => some (objs n)

/-- The `for iteration in range(max_iter)` loop of
`frank_wolfe_weight_matching_trial` (lines 85-121), reduced to its control
flow: at index `i` the freshly computed objective is `objs i`; the loop breaks
once `patience_steps` reaches 15.  Returns the number of iterations executed
and the final `new_obj`. -/
def trialGo (objs : ℕ → ℚ) : ℕ → ℕ → ℚ × ℕ → Option ℚ → ℕ × Option ℚ
  | 0, i, _, last => (i, last)
  | fuel + 1, i, s, _ =>
    if 15 ≤ (convStep s (objs i)).2 then (i + 1, some (objs i))
    else trialGo objs fuel (i + 1) (convStep s (objs i)) (some (objs i))

/-- The whole trial-loop control: `max_iter` iterations of fuel from the
initial state. -/
def frank_wolfe_trial_control (objs : ℕ → ℚ) (max_iter : ℕ) : ℕ × Option ℚ :=
  trialGo objs max_iter 0 ((0 : ℚ), (0 : ℕ)) none

/-- First iteration index in `[i, i + fuel)` at which the patience counter has
just reached 15. -/
def stop_search (objs : ℕ → ℚ) (i fuel : ℕ) : Option ℕ :=
  (List.range' i fuel).find? fun j => decide (15 ≤ (convTrace objs (j + 1)).2)

/-- Closed-form number of iterations the trial loop executes. -/
def stop_iters (objs : ℕ → ℚ) (max_iter : ℕ) : ℕ :=
  match stop_search objs 0 max_iter with
  | some j => j + 1
  | none => max_iter

/-- The convergence update as the claim words it: the baseline is the
objective of the previous iteration (always replaced), not the last recorded
one. -/
def convStepClaimed (s : ℚ × ℕ) (new_obj : ℚ) : ℚ × ℕ :=
  if new_obj - s.1 < conv_tol then (new_obj, s.2 + 1) else (new_obj, 0)

/-- The trial-loop control as the claim describes it, differing from `trialGo`
only in using `convStepClaimed`. -/
def trialGoClaimed (objs : ℕ → ℚ) : ℕ → ℕ → ℚ × ℕ → Option ℚ → ℕ × Option ℚ
  | 0, i, _, last => (i, last)
  | fuel + 1, i, s, _ =>
    if 15 ≤ (convStepClaimed s (objs i)).2 then (i + 1, some (objs i))
    else trialGoClaimed objs fuel (i + 1) (convStepClaimed s (objs i)) (some (objs i))

/-- Whole claim-described control loop. -/
def trial_control_claimed (objs : ℕ → ℚ) (max_iter : ℕ) : ℕ × Option ℚ :=
  trialGoClaimed objs max_iter 0 ((0 : ℚ), (0 : ℕ)) none

/-- Iterate of `convStepClaimed` from `(0.0, 0)`: the convergence state as the
claim describes it. -/
def convTraceClaimed (objs : ℕ → ℚ) : ℕ → ℚ × ℕ
  | 0 => ((0 : ℚ), (0 : ℕ))
  | n + 1 => convStepClaimed (convTraceClaimed objs n) (objs n)

/-- Objective sequence whose per-iteration increments are `7e-7` each: total
growth over two iterations exceeds `1e-6`, but no single step does. -/
def objs_lin : ℕ → ℚ := fun i => ((i : ℚ) + 1) * (7 / 10000000)

/-! ### Topology mutation and perm sizes (lines 38-50) -/

/-- The value of one key of `perm_to_layers_and_axes`: the ordered
`(param name, axis)` pairs the permutation acts on. -/
abbrev TopoEntry : Type := List (String × ℕ)

/-- `ps.perm_to_layers_and_axes`, as an insertion-ordered dict. -/
abbrev Topology : Type := List (String × TopoEntry)

/-- The entry assigned to `"P_final"` at line 44. -/
def linear_weight_entry : TopoEntry := [("linear.weight", 0)]

/-- Python dict assignment `d[k] = v`: replace the value in place when the key
is present, append otherwise. -/
def dict_set (d : Topology) (k : String) (v : TopoEntry) : Topology :=
  if d.any fun e => e.1 == k then d.map fun e => if e.1 == k then (k, v) else e
  else d ++ [(k, v)]

/-- The shapes of `params_a`: `None` models a missing key (`KeyError`). -/
abbrev ParamShapes : Type := String → Option (List ℕ)

/-- The body of the `perm_sizes` loop (lines 46-50) for one topology entry:
`params_and_axes[0]`, then `params_a[name].shape[axis]`. -/
def perm_size_of (params_a : ParamShapes) (e : String × TopoEntry) :
    Except PyErr (String × ℕ) :=
  match e.2 with
  | [] => Except.error (PyErr.indexError "list index out of range")
  | pa :: _ =>
    match params_a pa.1 with
    | none => Except.error (PyErr.keyError pa.1)
    | some shape =>
      match shape.get? pa.2 with
      | none => Except.error (PyErr.indexError "tuple index out of range")
      | some sz => Except.ok (e.1, sz)

/-- Lines 38-50 of `frank_wolfe_weight_matching`: mutate the topology by
inserting the `P_final` entry, then build `perm_sizes`; returns the mutated
topology together with the sizes. -/
def frank_wolfe_setup (ps : Topology) (params_a : ParamShapes) :
    Except PyErr (Topology × List (String × ℕ)) :=
  (mapExcept (perm_size_of params_a) (dict_set ps "P_final" linear_weight_entry)).map
    fun sizes => (dict_set ps "P_final" linear_weight_entry, sizes)

/-! ### Concrete instances used by witnesses and counterexamples -/

/-- A `torch.rand` draw equal to `1/4` everywhere (entries lie in `[0, 1)`). -/
def rand_quarter : RandSrc := fun _ _ => Matrix.of fun _ _ => (1 : ℚ) / 4

/-- A `torch.rand` draw with `0` on the diagonal and `1/2` off it (entries lie
in `[0, 1)`). -/
def rand_swap : RandSrc := fun _ _ => Matrix.of fun i j => if i = j then 0 else (1 : ℚ) / 2

/-- A projected-gradient table that is the identity at every name and size. -/
def proj_id : ProjGrads := fun _ _ => 1

/-- A small concrete `perm_matrices` dict. -/
def pmW : List (String × PMat) :=
  [("P_final", (⟨2, 1⟩ : PMat)), ("P_0", (⟨2, 1⟩ : PMat))]

/-- A concrete topology already holding the `P_final` entry. -/
def psCE : Topology := [("P_final", linear_weight_entry)]

/-- Concrete parameter shapes holding only `linear.weight` of shape `(8, 4)`. -/
def paCE : ParamShapes := fun s => if s = "linear.weight" then some [8, 4] else none

/-- A concrete topology without a `P_final` entry. -/
def psW : Topology := [("P_0", [("layer0.weight", 0)])]

/-- Concrete parameter shapes for `psW` plus `linear.weight`. -/
def paW : ParamShapes :=
  fun s =>
    if s = "linear.weight" then some [8, 4]
    else if s = "layer0.weight" then some [16] else none

/-! ### Helper lemmas -/

theorem allEntriesNonneg_iff {M : List (List ℚ)} :
    allEntriesNonneg M = true ↔ ∀ row ∈ M, ∀ x ∈ row, 0 ≤ x := by
  simp [allEntriesNonneg]

theorem sk_err_negative (M : List (List ℚ)) (tol : ℚ) (mi : ℕ)
    (h : ∃ row ∈ M, ∃ x ∈ row, x < 0) :
    sinkhorn_knopp M tol mi = Except.error (PyErr.valueError "Matrix contains negative values.") := by
  have hfalse : ¬ allEntriesNonneg M = true := by
    intro hc
    rcases h with ⟨row, hrow, x, hx, hneg⟩
    exact absurd (allEntriesNonneg_iff.mp hc row hrow x hx) (not_le.mpr hneg)
  simp [sinkhorn_knopp, hfalse]

theorem sk_err_shape (M : List (List ℚ)) (tol : ℚ) (mi : ℕ)
    (h : ∀ row ∈ M, ∀ x ∈ row, 0 ≤ x) (hs : M.length ≠ numColsL M) :
    sinkhorn_knopp M tol mi = Except.error (PyErr.valueError "Matrix must be square.") := by
  simp [sinkhorn_knopp, allEntriesNonneg_iff.mpr h, hs]

theorem sk_ok (M : List (List ℚ)) (tol : ℚ) (mi : ℕ)
    (h : ∀ row ∈ M, ∀ x ∈ row, 0 ≤ x) (hs : M.length = numColsL M) :
    ∃ V, sinkhorn_knopp M tol mi = Except.ok V := by
  refine ⟨skLoop tol mi (M.map fun row => row.map fun x => x / (totalSumL M + eps16))
    (List.replicate (numColsL M) 1), ?_⟩
  simp [sinkhorn_knopp, allEntriesNonneg_iff.mpr h, hs]

theorem skLoop_one (tol : ℚ) (M : List (List ℚ)) (c : List ℚ) :
    skLoop tol 1 M c =
      scaleCols (scaleRows (recipShift (mvL M c)) M)
        (recipShift (mvL (transposeL (scaleRows (recipShift (mvL M c)) M))
          (recipShift (mvL M c)))) := by
  show skLoop tol (0 + 1) M c = _
  simp only [skLoop, ite_self]

theorem best_foldl_const {α : Type} (ts : List (ℚ × α)) (acc : ℚ × Option (ℚ × α))
    (h : ∀ t ∈ ts, t.1 ≤ acc.1) : ts.foldl best_step acc = acc := by
  induction ts with
  | nil => rfl
  | cons t ts ih =>
    rw [List.foldl_cons,
      show best_step acc t = acc from by
        simp [best_step, not_lt.mpr (h t (List.mem_cons_self t ts))]]
    exact ih fun s hs => h s (List.mem_cons_of_mem _ hs)

theorem best_foldl_lt {α : Type} (ts : List (ℚ × α)) (c : ℚ) :
    ∀ acc : ℚ × Option (ℚ × α), acc.1 < c → (∀ t ∈ ts, t.1 < c) →
      (ts.foldl best_step acc).1 < c := by
  induction ts with
  | nil => intro acc hacc _; exact hacc
  | cons t ts ih =>
    intro acc hacc h
    rw [List.foldl_cons]
    refine ih _ ?_ fun s hs => h s (List.mem_cons_of_mem _ hs)
    by_cases hgt : t.1 > acc.1
    · simpa [best_step, hgt] using h t (List.mem_cons_self t ts)
    · simpa [best_step, hgt] using hacc

/-! ### Claim theorems -/

/-- C2: corrected.  The row-axis gradient contribution computed by
`compute_gradient_P_curr` for rank-2 parameters is `Wa @ q @ Wb.T`
(equivalently `Wa @ (Wb @ q.T).T`), the partial derivative of
`trace(Wa.T (P Wb q.T))` in the row permutation — not the claim's
`Wa @ (q @ Wb.T).T = Wa @ Wb @ q.T`. -/
theorem C2_grad_row_amended {r c : ℕ} (Wa Wb : Matrix (Fin r) (Fin c) ℚ)
    (q : Matrix (Fin c) (Fin c) ℚ) :
    compute_gradient_P_curr Wa Wb (some q) = Wa * q * Wb.transpose ∧
    compute_gradient_P_curr Wa Wb (some q) = Wa * (Wb * q.transpose).transpose ∧
    ∀ P : Matrix (Fin r) (Fin r) ℚ,
      compute_layer_similarity Wa Wb P (some q) =
        Matrix.trace ((compute_gradient_P_curr Wa Wb (some q)).transpose * P) := by
  refine ⟨?_, ?_, ?_⟩
  · simp [compute_gradient_P_curr, perm_rows, Matrix.mul_assoc]
  · simp [compute_gradient_P_curr, perm_rows, Matrix.transpose_mul,
      Matrix.transpose_transpose, Matrix.mul_assoc]
  · intro P
    rw [compute_layer_similarity]
    rw [show perm_cols (perm_rows Wb P) q.transpose = P * Wb * q.transpose from by
      simp [perm_cols, perm_rows, Matrix.transpose_mul, Matrix.transpose_transpose,
        Matrix.mul_assoc]]
    rw [show (compute_gradient_P_curr Wa Wb (some q)).transpose =
        Wb * q.transpose * Wa.transpose from by
      simp [compute_gradient_P_curr, perm_rows, Matrix.transpose_mul,
        Matrix.transpose_transpose, Matrix.mul_assoc]]
    rw [Matrix.trace_mul_comm Wa.transpose,
      Matrix.trace_mul_comm (Wb * q.transpose * Wa.transpose)]
    simp only [Matrix.mul_assoc]

/-- C2: counterexample to the claim as stated.  At `Wa = 1`,
`Wb = [[1,2],[3,4]]`, `q = [[0,1],[1,0]]` the computed gradient
`Wa @ q @ Wb.T = [[2,4],[1,3]]` differs from the claim's
`Wa @ Wb @ q.T = [[2,1],[4,3]]`. -/
theorem C2_counterexample :
    compute_gradient_P_curr (1 : Matrix (Fin 2) (Fin 2) ℚ) !![1, 2; 3, 4] (some !![0, 1; 1, 0]) ≠
      (1 : Matrix (Fin 2) (Fin 2) ℚ) * !![1, 2; 3, 4] * (!![0, 1; 1, 0] : Matrix (Fin 2) (Fin 2) ℚ).transpose := by
  intro h
  have h01 := congrFun (congrFun h 0) 1
  simp [compute_gradient_P_curr, perm_rows, Matrix.mul_apply, Fin.sum_univ_two,
    Matrix.one_apply, Matrix.transpose, Matrix.vecHead, Matrix.vecTail, Function.comp] at h01

/-- C3: the code evaluated at the failing input `[[1,2],[3,4]]`.  After its
first pass both column sums are below `1/2`, while one pass of the rescaling
the claim describes (divide rows by row sums, then columns by column sums)
leaves both column sums exactly 1: the code is not rescaling by the
reciprocals of the current sums. -/
theorem C3_code_bug_eval :
    sinkhorn_knopp sk_bug_input (1 / 10 ^ 10) 1 = Except.ok sk_bug_result ∧
    (∀ s ∈ colSumsL sk_bug_result, s < 1 / 2) ∧
    colSumsL (sinkhorn_pass_claimed sk_bug_input) = [1, 1] := by
  refine ⟨rfl, ?_, ?_⟩
  · have h1 : sk_bug_result = skLoop (1 / 10 ^ 10) 1
        (sk_bug_input.map fun row => row.map fun x => x / (totalSumL sk_bug_input + eps16))
        (List.replicate (numColsL sk_bug_input) 1) := rfl
    rw [h1, skLoop_one]
    norm_num [sk_bug_input, scaleRows, scaleCols, recipShift, mvL, transposeL, numColsL,
      colSumsL, rowSumsL, totalSumL, eps16, List.range_succ, List.replicate_succ]
  · norm_num [sinkhorn_pass_claimed, sk_bug_input, scaleRows, scaleCols, mvL, transposeL,
      numColsL, rowSumsL, colSumsL, List.range_succ]

/-- C6: corrected.  Provided the overall best objective exceeds the `0.0`
initialization of the accumulator, the first trial attaining it wins: for any
decomposition `pre ++ t :: post` with every earlier trial strictly below
`t`'s objective and every later one no greater, the driver hardens and
returns `t`'s state (ties keep the first, since the comparison is strict). -/
theorem C6_first_max_trial {α β : Type} (pre post : List (ℚ × α)) (t : ℚ × α) (harden : α → β)
    (hpos : 0 < t.1) (hpre : ∀ s ∈ pre, s.1 < t.1) (hpost : ∀ s ∈ post, s.1 ≤ t.1) :
    frank_wolfe_driver (pre ++ t :: post) harden = Except.ok (harden t.2) := by
  have hfold : select_best_trial (pre ++ t :: post) = (t.1, some t) := by
    unfold select_best_trial
    rw [List.foldl_append, List.foldl_cons]
    have hlt : (pre.foldl best_step ((0 : ℚ), none)).1 < t.1 :=
      best_foldl_lt pre t.1 _ hpos hpre
    rw [show best_step (pre.foldl best_step ((0 : ℚ), none)) t = (t.1, some t) from by
      simp [best_step, hlt]]
    exact best_foldl_const post _ hpost
  simp [frank_wolfe_driver, hfold]

theorem C6_witness :
    frank_wolfe_driver ([((1 : ℚ), (0 : ℕ))] ++ ((2 : ℚ), (1 : ℕ)) :: [((2 : ℚ), (2 : ℕ))]) id =
      Except.ok (id 1) :=
  C6_first_max_trial [((1 : ℚ), (0 : ℕ))] [((2 : ℚ), (2 : ℕ))] ((2 : ℚ), (1 : ℕ)) id
    (by norm_num) (by decide) (by decide)

/-- C6: counterexample to the claim as stated.  With a single trial of
objective `-1`, the strictly-highest trial is not hardened and returned: the
driver raises `UnboundLocalError` because no trial beat the `0.0`
accumulator. -/
theorem C6_counterexample :
    frank_wolfe_driver [((-1 : ℚ), (0 : ℕ))] id = Except.error PyErr.unboundLocalError ∧
    ∀ b : ℕ, frank_wolfe_driver [((-1 : ℚ), (0 : ℕ))] id ≠ Except.ok b :=
  ⟨rfl, fun _ h => Except.noConfusion h⟩

/-- C10: confirmed.  When every trial's final objective is at most 0, no trial
passes the strict `trial_obj > best_obj` test against the `best_obj = 0.0`
initialization, `best_perm_matrices` is never assigned, and the driver fails
with `UnboundLocalError`. -/
theorem C10_unbound_local {α β : Type} (trials : List (ℚ × α)) (harden : α → β)
    (h : ∀ s ∈ trials, s.1 ≤ 0) :
    frank_wolfe_driver trials harden = Except.error PyErr.unboundLocalError := by
  have hsel : select_best_trial trials = ((0 : ℚ), none) := best_foldl_const trials _ h
  simp [frank_wolfe_driver, hsel]

theorem C10_witness :
    frank_wolfe_driver [((-5 : ℚ), (0 : ℕ)), ((0 : ℚ), (3 : ℕ))] id =
      Except.error PyErr.unboundLocalError :=
  C10_unbound_local [((-5 : ℚ), (0 : ℕ)), ((0 : ℚ), (3 : ℕ))] id (by decide)

/-- C8: corrected.  `sinkhorn_knopp` fails exactly on a negative entry or a
non-square shape, but the negativity check runs first: a matrix with a
negative entry fails with the invalid-value error even when it is also
non-square; a non-negative non-square matrix fails with the shape error;
every non-negative square matrix returns normally. -/
theorem C8_sinkhorn_errors_amended :
    (∀ (M : List (List ℚ)) (tol : ℚ) (mi : ℕ), (∃ row ∈ M, ∃ x ∈ row, x < 0) →
      sinkhorn_knopp M tol mi = Except.error (PyErr.valueError "Matrix contains negative values.")) ∧
    (∀ (M : List (List ℚ)) (tol : ℚ) (mi : ℕ), (∀ row ∈ M, ∀ x ∈ row, 0 ≤ x) →
      M.length ≠ numColsL M →
      sinkhorn_knopp M tol mi = Except.error (PyErr.valueError "Matrix must be square.")) ∧
    (∀ (M : List (List ℚ)) (tol : ℚ) (mi : ℕ), (∀ row ∈ M, ∀ x ∈ row, 0 ≤ x) →
      M.length = numColsL M → ∃ V, sinkhorn_knopp M tol mi = Except.ok V) ∧
    (∀ (M : List (List ℚ)) (tol : ℚ) (mi : ℕ),
      (∃ V, sinkhorn_knopp M tol mi = Except.ok V) ↔
        (∀ row ∈ M, ∀ x ∈ row, 0 ≤ x) ∧ M.length = numColsL M) := by
  refine ⟨sk_err_negative, sk_err_shape, sk_ok, ?_⟩
  intro M tol mi
  constructor
  · rintro ⟨V, hV⟩
    by_cases hnn : ∀ row ∈ M, ∀ x ∈ row, 0 ≤ x
    · refine ⟨hnn, ?_⟩
      by_contra hs
      rw [sk_err_shape M tol mi hnn hs] at hV
      exact Except.noConfusion hV
    · push_neg at hnn
      rcases hnn with ⟨row, hrow, x, hx, hneg⟩
      rw [sk_err_negative M tol mi ⟨row, hrow, x, hx, hneg⟩] at hV
      exact Except.noConfusion hV
  · rintro ⟨hnn, hs⟩
    exact sk_ok M tol mi hnn hs

theorem C8_witness : ∃ V, sinkhorn_knopp [[(1 : ℚ)]] 1 3 = Except.ok V :=
  (C8_sinkhorn_errors_amended.2.2.1) [[(1 : ℚ)]] 1 3 (by decide) (by decide)

/-- C8: counterexample to the claim as stated.  The non-square matrix
`[[-1, 0]]` fails with the negative-values error, not the shape error the
claim promises for every non-square matrix. -/
theorem C8_counterexample :
    sinkhorn_knopp [[-1, 0]] (1 / 10 ^ 10) 1000 =
      Except.error (PyErr.valueError "Matrix contains negative values.") ∧
    ([[-1, 0]] : List (List ℚ)).length ≠ numColsL [[-1, 0]] ∧
    PyErr.valueError "Matrix contains negative values." ≠
      PyErr.valueError "Matrix must be square." :=
  ⟨rfl, by decide, by decide⟩

theorem lookup_map_keep (f : String × PMat → String × PMat)
    (hkey : ∀ e, (f e).1 = e.1) (hfix : ∀ e, e.1 ∈ fixed_perm_names → f e = e)
    (pm : List (String × PMat)) (name : String) (h : name ∈ fixed_perm_names) :
    List.lookup name (pm.map f) = List.lookup name pm := by
  induction pm with
  | nil => rfl
  | cons e l ih =>
    obtain ⟨k, v⟩ := e
    rcases hfe : f (k, v) with ⟨k2, v2⟩
    have hk : k2 = k := by simpa [hfe] using hkey (k, v)
    subst hk
    rw [List.map_cons, hfe, List.lookup, List.lookup]
    by_cases hn : (name == k2) = true
    · have hnk : name = k2 := by simpa using hn
      have : f (k2, v) = (k2, v) := hfix (k2, v) (hnk ▸ h)
      rw [this] at hfe
      simp only [hn]
      exact congrArg some (congrArg Prod.snd hfe.symm)
    · simp only [Bool.not_eq_true] at hn
      simp only [hn]
      exact ih

theorem lookup_update_fixed (pm : List (String × PMat)) (proj : ProjGrads) (t : ℚ)
    (name : String) (h : name ∈ fixed_perm_names) :
    List.lookup name (update_perm_matrices pm proj t) = List.lookup name pm := by
  refine lookup_map_keep _ ?_ ?_ pm name h
  · intro e; by_cases he : e.1 ∈ fixed_perm_names <;> simp [he]
  · intro e he; simp [he]

theorem lookup_interp_fixed (pm : List (String × PMat)) (proj : ProjGrads) (t : ℚ)
    (name : String) (h : name ∈ fixed_perm_names) :
    List.lookup name (line_search_interp t pm proj) = List.lookup name pm := by
  refine lookup_map_keep _ ?_ ?_ pm name h
  · intro e; by_cases he : e.1 ∈ fixed_perm_names <;> simp [he]
  · intro e he; simp [he]

theorem lookup_map_entry (g : String → ℕ → PMat) (sizes : List (String × ℕ)) (a : String)
    (k : ℕ) (h : List.lookup a sizes = some k) :
    List.lookup a (sizes.map fun e => (e.1, g e.1 e.2)) = some (g a k) := by
  induction sizes with
  | nil => cases h
  | cons e l ih =>
    obtain ⟨s, m⟩ := e
    rw [List.map_cons] at *
    rw [List.lookup] at h
    rw [List.lookup]
    by_cases hn : (a == s) = true
    · have has : a = s := by simpa using hn
      rw [hn] at h
      simp only [hn]
      obtain rfl : m = k := by simpa using h
      rw [has]
    · simp only [Bool.not_eq_true] at hn
      rw [hn] at h
      simp only [hn]
      exact ih h

theorem identity_ds (n : ℕ) : IsDoublyStochastic (1 : Matrix (Fin n) (Fin n) ℚ) := by
  refine ⟨?_, ?_, ?_⟩
  · intro i j
    by_cases h : i = j <;> simp [Matrix.one_apply, h]
  · intro i; simp [Matrix.one_apply]
  · intro j; simp [Matrix.one_apply]

theorem convex_comb_ds {n : ℕ} {P Q : Matrix (Fin n) (Fin n) ℚ} {t : ℚ}
    (h0 : 0 ≤ t) (h1 : t ≤ 1) (hP : IsDoublyStochastic P) (hQ : IsDoublyStochastic Q) :
    IsDoublyStochastic ((1 - t) • P + t • Q) := by
  obtain ⟨hP0, hPr, hPc⟩ := hP
  obtain ⟨hQ0, hQr, hQc⟩ := hQ
  refine ⟨?_, ?_, ?_⟩
  · intro i j
    simp only [Matrix.add_apply, Matrix.smul_apply, smul_eq_mul]
    exact add_nonneg (mul_nonneg (by linarith) (hP0 i j)) (mul_nonneg h0 (hQ0 i j))
  · intro i
    simp only [Matrix.add_apply, Matrix.smul_apply, smul_eq_mul]
    rw [Finset.sum_add_distrib, ← Finset.mul_sum, ← Finset.mul_sum, hPr i, hQr i]
    ring
  · intro j
    simp only [Matrix.add_apply, Matrix.smul_apply, smul_eq_mul]
    rw [Finset.sum_add_distrib, ← Finset.mul_sum, ← Finset.mul_sum, hPc j, hQc j]
    ring

theorem ds_entry_le_one {n : ℕ} {M : Matrix (Fin n) (Fin n) ℚ}
    (h : IsDoublyStochastic M) (i j : Fin n) : M i j ≤ 1 := by
  obtain ⟨h0, hr, _⟩ := h
  calc M i j ≤ ∑ j2, M i j2 := Finset.single_le_sum (fun k _ => h0 i k) (Finset.mem_univ j)
  _ = 1 := hr i

theorem update_preserves_ds (pm : List (String × PMat)) (proj : ProjGrads) (t : ℚ)
    (h0 : 0 ≤ t) (h1 : t ≤ 1) (hpm : ∀ e ∈ pm, IsDoublyStochastic e.2.2)
    (hproj : ∀ (p : String) (k : ℕ), IsDoublyStochastic (proj p k)) :
    ∀ e ∈ update_perm_matrices pm proj t, IsDoublyStochastic e.2.2 := by
  intro e he
  rw [update_perm_matrices] at he
  obtain ⟨a, ha, rfl⟩ := List.mem_map.mp he
  by_cases hf : a.1 ∈ fixed_perm_names
  · rw [if_pos hf]
    exact hpm a ha
  · rw [if_neg hf]
    exact convex_comb_ds h0 h1 (hpm a ha) (hproj a.1 a.2.1)

/-- C1: corrected.  The fixed output permutation ("P_final" / "P_4") is kept
unchanged both by the line-search interpolation and by the update step, hence
it keeps its initialization value across all iterations; and with the
`identity` initialization method it is (and stays) the identity matrix — but
not "regardless of initialization": see the counterexample. -/
theorem C1_fixed_perm_amended :
    (∀ (pm : List (String × PMat)) (proj : ProjGrads) (t : ℚ) (name : String),
        name ∈ fixed_perm_names →
        List.lookup name (update_perm_matrices pm proj t) = List.lookup name pm ∧
        List.lookup name (line_search_interp t pm proj) = List.lookup name pm) ∧
    (∀ (sizes : List (String × ℕ)) (rand : RandSrc) (k : ℕ),
        List.lookup "P_final" sizes = some k →
        initialize_perm_matrices sizes "identity" rand =
          Except.ok (sizes.map fun e => (e.1, (⟨e.2, 1⟩ : PMat))) ∧
        List.lookup "P_final" (sizes.map fun e => (e.1, (⟨e.2, 1⟩ : PMat))) =
          some (⟨k, 1⟩ : PMat)) ∧
    (∀ (pm : List (String × PMat)) (steps : List (ProjGrads × ℚ)) (v : PMat),
        List.lookup "P_final" pm = some v →
        List.lookup "P_final"
          (steps.foldl (fun m s => update_perm_matrices m s.1 s.2) pm) = some v) := by
  refine ⟨?_, ?_, ?_⟩
  · intro pm proj t name h
    exact ⟨lookup_update_fixed pm proj t name h, lookup_interp_fixed pm proj t name h⟩
  · intro sizes rand k h
    refine ⟨by simp [initialize_perm_matrices], ?_⟩
    exact lookup_map_entry (fun _ m => (⟨m, 1⟩ : PMat)) sizes "P_final" k h
  · intro pm steps
    induction steps generalizing pm with
    | nil => intro v h; exact h
    | cons s l ih =>
      intro v h
      rw [List.foldl_cons]
      exact ih _ v ((lookup_update_fixed pm s.1 s.2 "P_final" (by simp [fixed_perm_names])).trans h)

theorem C1_witness :
    (List.lookup "P_final" (update_perm_matrices pmW proj_id (1 / 2)) =
      List.lookup "P_final" pmW) ∧
    (initialize_perm_matrices [("P_final", 2)] "identity" proj_id =
      Except.ok [("P_final", (⟨2, 1⟩ : PMat))] ∧
     List.lookup "P_final" [("P_final", (⟨2, 1⟩ : PMat))] = some (⟨2, 1⟩ : PMat)) ∧
    List.lookup "P_final"
      ([(proj_id, (1 : ℚ) / 2)].foldl (fun m s => update_perm_matrices m s.1 s.2) pmW) =
      some (⟨2, 1⟩ : PMat) :=
  ⟨(C1_fixed_perm_amended.1 pmW proj_id (1 / 2) "P_final" (by simp [fixed_perm_names])).1,
   C1_fixed_perm_amended.2.1 [("P_final", 2)] proj_id 2 rfl,
   C1_fixed_perm_amended.2.2 pmW [(proj_id, (1 : ℚ) / 2)] (⟨2, 1⟩ : PMat) rfl⟩

/-- C1: counterexample to the claim as stated.  With the `random`
initialization method a legal `torch.rand` draw (entries in `[0, 1)`) makes
the fixed variable's matrix non-identity, so "always equal to the identity
matrix regardless of which initialization method was chosen" is false. -/
theorem C1_counterexample :
    initialize_perm_matrices [("P_final", 2)] "random" rand_swap =
      Except.ok [("P_final", (⟨2, rand_swap "P_final" 2⟩ : PMat))] ∧
    rand_swap "P_final" 2 ≠ (1 : Matrix (Fin 2) (Fin 2) ℚ) ∧
    (∀ i j : Fin 2, 0 ≤ rand_swap "P_final" 2 i j ∧ rand_swap "P_final" 2 i j < 1) := by
  refine ⟨rfl, ?_, ?_⟩
  · intro h
    have h00 := congrFun (congrFun h 0) 0
    norm_num [rand_swap, Matrix.one_apply, Matrix.of_apply] at h00
  · intro i j
    constructor <;> by_cases hij : i = j <;> norm_num [rand_swap, Matrix.of_apply, hij]

/-- C4: corrected.  With the `identity` initialization every permutation
matrix starts doubly stochastic, and the update step preserves double
stochasticity (hence Birkhoff-polytope membership, with entries in `[0, 1]`)
whenever the projected gradients are doubly stochastic (the assignment
projector returns permutation matrices) and the step size lies in `[0, 1]`
(`fminbound` is called on `[0, 1]`); by induction this holds at every
iteration.  It is not true at the initial state of the `random` method: see
the counterexample. -/
theorem C4_polytope_amended :
    (∀ (sizes : List (String × ℕ)) (rand : RandSrc) (pm : List (String × PMat)),
        initialize_perm_matrices sizes "identity" rand = Except.ok pm →
        ∀ e ∈ pm, IsDoublyStochastic e.2.2 ∧ ∀ i j, 0 ≤ e.2.2 i j ∧ e.2.2 i j ≤ 1) ∧
    (∀ (pm : List (String × PMat)) (proj : ProjGrads) (t : ℚ), 0 ≤ t → t ≤ 1 →
        (∀ e ∈ pm, IsDoublyStochastic e.2.2) →
        (∀ (p : String) (k : ℕ), IsDoublyStochastic (proj p k)) →
        ∀ e ∈ update_perm_matrices pm proj t,
          IsDoublyStochastic e.2.2 ∧ ∀ i j, 0 ≤ e.2.2 i j ∧ e.2.2 i j ≤ 1) ∧
    (∀ (pm : List (String × PMat)) (steps : List (ProjGrads × ℚ)),
        (∀ e ∈ pm, IsDoublyStochastic e.2.2) →
        (∀ s ∈ steps, 0 ≤ s.2 ∧ s.2 ≤ 1 ∧ ∀ (p : String) (k : ℕ), IsDoublyStochastic (s.1 p k)) →
        ∀ e ∈ steps.foldl (fun m s => update_perm_matrices m s.1 s.2) pm,
          IsDoublyStochastic e.2.2) := by
  refine ⟨?_, ?_, ?_⟩
  · intro sizes rand pm hpm e he
    have hpm2 : pm = sizes.map fun e => (e.1, (⟨e.2, 1⟩ : PMat)) := by
      have h2 := hpm
      simp [initialize_perm_matrices] at h2
      exact h2.symm
    subst hpm2
    obtain ⟨a, ha, rfl⟩ := List.mem_map.mp he
    exact ⟨identity_ds a.2, fun i j => ⟨(identity_ds a.2).1 i j,
      ds_entry_le_one (identity_ds a.2) i j⟩⟩
  · intro pm proj t h0 h1 hpm hproj e he
    have hds := update_preserves_ds pm proj t h0 h1 hpm hproj e he
    exact ⟨hds, fun i j => ⟨hds.1 i j, ds_entry_le_one hds i j⟩⟩
  · intro pm steps
    induction steps generalizing pm with
    | nil => intro hpm _ e he; exact hpm e he
    | cons s l ih =>
      intro hpm hsteps e he
      rw [List.foldl_cons] at he
      have hs := hsteps s (List.mem_cons_self s l)
      exact ih _ (update_preserves_ds pm s.1 s.2 hs.1 hs.2.1 hpm hs.2.2)
        (fun s2 hs2 => hsteps s2 (List.mem_cons_of_mem _ hs2)) e he

theorem C4_witness :
    IsDoublyStochastic
      ((1 - (1 : ℚ) / 2) • (1 : Matrix (Fin 2) (Fin 2) ℚ) + ((1 : ℚ) / 2) • proj_id "P_0" 2) :=
  ((C4_polytope_amended.2.1 [("P_0", (⟨2, 1⟩ : PMat))] proj_id ((1 : ℚ) / 2)
      (by norm_num) (by norm_num)
      (fun e he => by rw [List.mem_singleton] at he; subst he; exact identity_ds 2)
      (fun p k => identity_ds k))
    ("P_0", (⟨2, (1 - (1 : ℚ) / 2) • (1 : Matrix (Fin 2) (Fin 2) ℚ) +
        ((1 : ℚ) / 2) • proj_id "P_0" 2⟩ : PMat))
    (List.mem_singleton.mpr rfl)).1

/-- C4: counterexample to the claim as stated.  With the `random`
initialization method, the legal draw with all entries `1/4` puts the
non-fixed variable `P_0` outside the Birkhoff polytope at the initial state
(row sums are `1/2`, not 1), so the invariant does not hold for "any of the
three initialization methods". -/
theorem C4_counterexample :
    initialize_perm_matrices [("P_0", 2)] "random" rand_quarter =
      Except.ok [("P_0", (⟨2, rand_quarter "P_0" 2⟩ : PMat))] ∧
    ¬ IsDoublyStochastic (rand_quarter "P_0" 2) ∧
    (∀ i j : Fin 2, 0 ≤ rand_quarter "P_0" 2 i j ∧ rand_quarter "P_0" 2 i j < 1) := by
  refine ⟨rfl, ?_, ?_⟩
  · intro hds
    have hrow := hds.2.1 0
    rw [Fin.sum_univ_two] at hrow
    norm_num [rand_quarter, Matrix.of_apply] at hrow
  · intro i j
    norm_num [rand_quarter, Matrix.of_apply]

theorem lookup_map_set (k : String) (v : TopoEntry) :
    ∀ d : Topology, (d.any fun e => e.1 == k) = true →
      List.lookup k (d.map fun e => if e.1 == k then (k, v) else e) = some v := by
  intro d
  induction d with
  | nil => intro h; cases h
  | cons e l ih =>
    intro h
    obtain ⟨k1, v1⟩ := e
    rw [List.map_cons]
    by_cases he : ((k1, v1).1 == k) = true
    · rw [if_pos he]
      simp
    · rw [if_neg he]
      have hne : k1 ≠ k := by simpa using he
      have hk : (k == k1) = false := beq_eq_false_iff_ne.mpr (Ne.symm hne)
      simp only [List.any_cons, Bool.or_eq_true] at h
      have hl : (l.any fun e => e.1 == k) = true := by
        rcases h with h | h
        · exact absurd h he
        · exact h
      simp only [List.lookup, hk]
      exact ih hl

theorem lookup_append_self (k : String) (v : TopoEntry) :
    ∀ d : Topology, ¬ (d.any fun e => e.1 == k) = true →
      List.lookup k (d ++ [(k, v)]) = some v := by
  intro d
  induction d with
  | nil => intro _; simp
  | cons e l ih =>
    intro h
    obtain ⟨k1, v1⟩ := e
    simp only [List.any_cons, Bool.or_eq_true, not_or] at h
    have hne : k1 ≠ k := by simpa using h.1
    have hk : (k == k1) = false := beq_eq_false_iff_ne.mpr (Ne.symm hne)
    rw [List.cons_append]
    simp only [List.lookup, hk]
    exact ih (by simpa using h.2)

theorem dict_set_lookup (d : Topology) (k : String) (v : TopoEntry) :
    List.lookup k (dict_set d k v) = some v := by
  rw [dict_set]
  by_cases h : (d.any fun e => e.1 == k) = true
  · rw [if_pos h]
    exact lookup_map_set k v d h
  · rw [if_neg h]
    exact lookup_append_self k v d h

theorem dict_set_mem (d : Topology) (k : String) (v : TopoEntry) :
    (k, v) ∈ dict_set d k v := by
  rw [dict_set]
  by_cases h : (d.any fun e => e.1 == k) = true
  · rw [if_pos h]
    obtain ⟨e, he, hek⟩ := List.any_eq_true.mp h
    exact List.mem_map.mpr ⟨e, he, by rw [if_pos hek]⟩
  · rw [if_neg h]
    exact List.mem_append_right _ (List.mem_singleton.mpr rfl)

theorem mapExcept_ne_ok {α β : Type} (f : α → Except PyErr β) (e : α) :
    ∀ l : List α, e ∈ l → (∀ b, f e ≠ Except.ok b) →
      ∀ r, mapExcept f l ≠ Except.ok r := by
  intro l
  induction l with
  | nil => intro h; cases h
  | cons a l ih =>
    intro he hf r hok
    rw [mapExcept] at hok
    cases hfa : f a with
    | error err =>
      rw [hfa] at hok
      exact Except.noConfusion hok
    | ok b =>
      rw [hfa] at hok
      cases he with
      | head => exact hf b hfa
      | tail _ hmem =>
        cases hml : mapExcept f l with
        | error err2 =>
          rw [hml] at hok
          exact Except.noConfusion hok
        | ok r2 => exact ih hmem hf r2 hml

theorem perm_size_of_fst (pa : ParamShapes) (e : String × TopoEntry) (b : String × ℕ)
    (h : perm_size_of pa e = Except.ok b) : b.1 = e.1 := by
  rw [perm_size_of] at h
  split at h
  · exact Except.noConfusion h
  · split at h
    · exact Except.noConfusion h
    · split at h
      · exact Except.noConfusion h
      · injection h with h2
        rw [← h2]

theorem mapExcept_lookup_sizes (pa : ParamShapes) :
    ∀ (l : Topology) (r : List (String × ℕ)) (k : String) (v : TopoEntry),
      mapExcept (perm_size_of pa) l = Except.ok r →
      List.lookup k l = some v →
      ∃ sz, perm_size_of pa (k, v) = Except.ok (k, sz) ∧ List.lookup k r = some sz := by
  intro l
  induction l with
  | nil => intro r k v _ hl; cases hl
  | cons e l ih =>
    intro r k v hm hl
    obtain ⟨k1, v1⟩ := e
    rw [mapExcept] at hm
    cases hfa : perm_size_of pa (k1, v1) with
    | error err =>
      rw [hfa] at hm
      exact Except.noConfusion hm
    | ok b =>
      rw [hfa] at hm
      cases hml : mapExcept (perm_size_of pa) l with
      | error err2 =>
        rw [hml] at hm
        exact Except.noConfusion hm
      | ok r2 =>
        rw [hml] at hm
        obtain rfl : b :: r2 = r := by
          simpa [Bind.bind, Except.bind, Pure.pure, Except.pure] using hm
        have hb1 : b.1 = k1 := perm_size_of_fst pa (k1, v1) b hfa
        by_cases hk : (k == k1) = true
        · have hkk : k = k1 := by simpa using hk
          subst hkk
          have hv : v1 = v := by simpa [List.lookup, hk] using hl
          subst hv
          have hbk : b = (k, b.2) := by
            rw [← hb1]
          refine ⟨b.2, ?_, ?_⟩
          · rw [hfa]
            exact congrArg Except.ok hbk
          · have hkb : (k == b.1) = true := by rw [hb1]; exact hk
            simp [List.lookup, hkb]
        · have hk2 : (k == b.1) = false := by
            rw [hb1]
            simpa using hk
          have hkf : (k == k1) = false := by simpa using hk
          rw [List.lookup, hkf] at hl
          obtain ⟨sz, h1, h2⟩ := ih r2 k v hml hl
          exact ⟨sz, h1, by simp [List.lookup, hk2, h2]⟩

theorem map_eq_self_list {α : Type} (f : α → α) :
    ∀ l : List α, l.map f = l ↔ ∀ x ∈ l, f x = x := by
  intro l
  induction l with
  | nil => simp
  | cons a l ih =>
    rw [List.map_cons]
    constructor
    · intro h
      obtain ⟨h1, h2⟩ := List.cons.injEq _ _ _ _ ▸ h
      intro x hx
      rcases List.mem_cons.mp hx with rfl | hx2
      · exact h1
      · exact (ih.mp h2) x hx2
    · intro h
      rw [h a (List.mem_cons_self a l), ih.mpr fun x hx => h x (List.mem_cons_of_mem _ hx)]

/-- C9: corrected.  `frank_wolfe_weight_matching` unconditionally writes the
entry `"P_final" ↦ [("linear.weight", 0)]` into the topology before running
any trial, so the topology it uses always holds that entry; the call fails
when `params_a` lacks the key `"linear.weight"`, and on success `P_final`'s
size is the axis-0 extent of `linear.weight`.  However the caller's topology
remains value-unchanged exactly when it already mapped every `"P_final"` key
to that entry — so "does not remain unchanged" does not hold for every call. -/
theorem perm_size_of_pfinal (pa : ParamShapes) (shape : List ℕ) (s0 : ℕ)
    (hpa : pa "linear.weight" = some shape) (hget : shape.get? 0 = some s0) :
    perm_size_of pa ("P_final", linear_weight_entry) = Except.ok ("P_final", s0) := by
  rw [perm_size_of]
  dsimp only [linear_weight_entry]
  rw [hpa]
  dsimp only
  rw [hget]

theorem C9_topology_amended :
    (∀ ps : Topology,
        List.lookup "P_final" (dict_set ps "P_final" linear_weight_entry) =
          some linear_weight_entry) ∧
    (∀ (ps : Topology) (pa : ParamShapes), pa "linear.weight" = none →
        ∀ r, frank_wolfe_setup ps pa ≠ Except.ok r) ∧
    (∀ (ps : Topology) (pa : ParamShapes) (t : Topology) (sizes : List (String × ℕ))
        (shape : List ℕ) (s0 : ℕ),
        frank_wolfe_setup ps pa = Except.ok (t, sizes) →
        pa "linear.weight" = some shape → shape.get? 0 = some s0 →
        List.lookup "P_final" sizes = some s0) ∧
    (∀ ps : Topology,
        dict_set ps "P_final" linear_weight_entry = ps ↔
          ((ps.any fun e => e.1 == "P_final") = true ∧
            ∀ e ∈ ps, e.1 = "P_final" → e.2 = linear_weight_entry)) := by
  refine ⟨?_, ?_, ?_, ?_⟩
  · intro ps
    exact dict_set_lookup ps "P_final" linear_weight_entry
  · intro ps pa hpa r hok
    rw [frank_wolfe_setup] at hok
    cases hm : mapExcept (perm_size_of pa) (dict_set ps "P_final" linear_weight_entry) with
    | error err =>
      rw [hm] at hok
      exact Except.noConfusion hok
    | ok sizes =>
      refine mapExcept_ne_ok (perm_size_of pa) ("P_final", linear_weight_entry) _
        (dict_set_mem ps "P_final" linear_weight_entry) ?_ sizes hm
      intro b hb
      simp [perm_size_of, linear_weight_entry, hpa] at hb
  · intro ps pa t sizes shape s0 hok hpa hget
    rw [frank_wolfe_setup] at hok
    cases hm : mapExcept (perm_size_of pa) (dict_set ps "P_final" linear_weight_entry) with
    | error err =>
      rw [hm] at hok
      exact Except.noConfusion hok
    | ok r2 =>
      rw [hm] at hok
      have hr2 : r2 = sizes := by
        injection hok with h2
        exact congrArg Prod.snd h2
      subst hr2
      obtain ⟨sz, hsz, hlook⟩ := mapExcept_lookup_sizes pa _ r2 "P_final" linear_weight_entry
        hm (dict_set_lookup ps "P_final" linear_weight_entry)
      have hsz2 : sz = s0 := by
        rw [perm_size_of_pfinal pa shape s0 hpa hget] at hsz
        injection hsz with h3
        exact (congrArg Prod.snd h3).symm
      rw [← hsz2]
      exact hlook
  · intro ps
    rw [dict_set]
    by_cases h : (ps.any fun e => e.1 == "P_final") = true
    · rw [if_pos h]
      constructor
      · intro hmap
        refine ⟨h, ?_⟩
        intro e he hek
        have heq := (map_eq_self_list _ ps).mp hmap e he
        rw [if_pos (show (e.1 == "P_final") = true by simp [hek])] at heq
        rw [← heq]
      · rintro ⟨-, hall⟩
        refine (map_eq_self_list _ ps).mpr ?_
        intro e he
        by_cases hek : (e.1 == "P_final") = true
        · rw [if_pos hek]
          have h1 : e.1 = "P_final" := by simpa using hek
          have h2 : e.2 = linear_weight_entry := hall e he h1
          rw [← h1, ← h2]
        · rw [if_neg hek]
    · rw [if_neg h]
      constructor
      · intro happ
        have hlen := congrArg List.length happ
        simp at hlen
      · rintro ⟨ha, -⟩
        exact absurd ha h

theorem C9_witness :
    List.lookup "P_final" [("P_0", 16), ("P_final", 8)] = some 8 :=
  C9_topology_amended.2.2.1 psW paW (psW ++ [("P_final", linear_weight_entry)])
    [("P_0", 16), ("P_final", 8)] [8, 4] 8 rfl rfl rfl

/-- C9: counterexample to the claim as stated.  When the caller's topology
already maps `"P_final"` to `[("linear.weight", 0)]`, the dict assignment is
value-idempotent and the whole setup succeeds returning the topology
unchanged — contradicting "the caller's topology object does not remain
unchanged after the call". -/
theorem C9_counterexample :
    dict_set psCE "P_final" linear_weight_entry = psCE ∧
    frank_wolfe_setup psCE paCE = Except.ok (psCE, [("P_final", 8)]) :=
  ⟨rfl, rfl⟩

theorem addGrad_apply {n : ℕ} (g : String → Matrix (Fin n) (Fin n) ℚ) (i : Option String)
    (G : Matrix (Fin n) (Fin n) ℚ) (p : String) (hp : p ≠ "") :
    addGrad g i G p = g p + (if i = some p then G else 0) := by
  rcases i with _ | q
  · simp [addGrad]
  · rw [addGrad]
    by_cases hq : q = ""
    · subst hq
      rw [if_pos rfl]
      rw [if_neg (by simpa using Ne.symm hp)]
      rw [add_zero]
    · rw [if_neg hq]
      by_cases hqp : q = p
      · subst hqp
        rw [Function.update_same, if_pos rfl]
      · rw [Function.update_noteq (Ne.symm hqp)]
        rw [if_neg (by simpa using hqp), add_zero]

theorem layerGradStep_apply {n : ℕ} (pm : String → Matrix (Fin n) (Fin n) ℚ)
    (g : String → Matrix (Fin n) (Fin n) ℚ) (L : FWLayer n) (p : String) (hp : p ≠ "") :
    layerGradStep pm g L p =
      g p +
        (if L.rowPermId = some p
          then compute_gradient_P_curr L.Wa L.Wb (some (colPermOf pm L)) else 0) +
        (if L.colPermId = some p
          then compute_gradient_P_prev L.Wa L.Wb (rowPermOf pm L) else 0) := by
  rw [layerGradStep, addGrad_apply _ _ _ p hp, addGrad_apply _ _ _ p hp]

theorem rowTermSum_cons {n : ℕ} (pm : String → Matrix (Fin n) (Fin n) ℚ) (L : FWLayer n)
    (ls : List (FWLayer n)) (p : String) :
    rowTermSum pm (L :: ls) p =
      (if L.rowPermId = some p
        then compute_gradient_P_curr L.Wa L.Wb (some (colPermOf pm L)) else 0) +
        rowTermSum pm ls p := by
  rw [rowTermSum, rowTermSum, List.filter_cons]
  by_cases h : L.rowPermId = some p
  · simp [h]
  · simp [h]

theorem colTermSum_cons {n : ℕ} (pm : String → Matrix (Fin n) (Fin n) ℚ) (L : FWLayer n)
    (ls : List (FWLayer n)) (p : String) :
    colTermSum pm (L :: ls) p =
      (if L.colPermId = some p
        then compute_gradient_P_prev L.Wa L.Wb (rowPermOf pm L) else 0) +
        colTermSum pm ls p := by
  rw [colTermSum, colTermSum, List.filter_cons]
  by_cases h : L.colPermId = some p
  · simp [h]
  · simp [h]

theorem gradfold_spec {n : ℕ} (pm : String → Matrix (Fin n) (Fin n) ℚ) (p : String)
    (hp : p ≠ "") :
    ∀ (layers : List (FWLayer n)) (g : String → Matrix (Fin n) (Fin n) ℚ),
      layers.foldl (layerGradStep pm) g p =
        g p + rowTermSum pm layers p + colTermSum pm layers p := by
  intro layers
  induction layers with
  | nil => intro g; simp [rowTermSum, colTermSum]
  | cons L ls ih =>
    intro g
    rw [List.foldl_cons, ih, layerGradStep_apply pm g L p hp,
      rowTermSum_cons, colTermSum_cons]
    abel

/-- C7: confirmed.  The gradient table built by the layer loop assigns to
every (non-empty-named) permutation variable `p` the sum, over the layers
whose row permutation is `p`, of the row-axis term
`compute_gradient_P_curr(Wa, Wb, colPerm) = Wa (colPerm Wb.T)`, plus the sum,
over the layers whose column permutation is `p`, of the column-axis term
`compute_gradient_P_prev(Wa, Wb, rowPerm) = Wa.T (rowPerm Wb)`; a layer whose
row and column permutations are two different variables contributes to both
in the same iteration. -/
theorem C7_gradient_sum {n : ℕ} (pm : String → Matrix (Fin n) (Fin n) ℚ)
    (layers : List (FWLayer n)) (p : String) (hp : p ≠ "") :
    weight_matching_gradient_fn_layerwise pm layers p =
      rowTermSum pm layers p + colTermSum pm layers p := by
  rw [weight_matching_gradient_fn_layerwise, gradfold_spec pm p hp layers]
  simp

theorem C7_witness :
    weight_matching_gradient_fn_layerwise (fun _ => (1 : Matrix (Fin 1) (Fin 1) ℚ))
        [⟨!![2], !![3], some "P_0", some "P_1"⟩] "P_0" =
      rowTermSum (fun _ => (1 : Matrix (Fin 1) (Fin 1) ℚ))
        [⟨!![2], !![3], some "P_0", some "P_1"⟩] "P_0" +
      colTermSum (fun _ => (1 : Matrix (Fin 1) (Fin 1) ℚ))
        [⟨!![2], !![3], some "P_0", some "P_1"⟩] "P_0" :=
  C7_gradient_sum (fun _ => (1 : Matrix (Fin 1) (Fin 1) ℚ))
    [⟨!![2], !![3], some "P_0", some "P_1"⟩] "P_0" (by decide)

theorem trialGo_spec (objs : ℕ → ℚ) :
    ∀ fuel i : ℕ,
      trialGo objs fuel i (convTrace objs i) (lastObj objs i) =
        match stop_search objs i fuel with
        | some j => (j + 1, some (objs j))
        | none => (i + fuel, lastObj objs (i + fuel)) := by
  intro fuel
  induction fuel with
  | zero =>
    intro i
    simp [trialGo, stop_search, List.range']
  | succ fu ih =>
    intro i
    have hstep : convStep (convTrace objs i) (objs i) = convTrace objs (i + 1) := rfl
    rw [trialGo, hstep]
    by_cases h : 15 ≤ (convTrace objs (i + 1)).2
    · rw [if_pos h]
      have hs : stop_search objs i (fu + 1) = some i := by
        simp [stop_search, List.range'_succ, h]
      rw [hs]
    · rw [if_neg h]
      have hlast : some (objs i) = lastObj objs (i + 1) := rfl
      rw [hlast, ih (i + 1)]
      have hss : stop_search objs i (fu + 1) = stop_search objs (i + 1) fu := by
        simp [stop_search, List.range'_succ, h]
      rw [hss]
      cases hs2 : stop_search objs (i + 1) fu with
      | some j => rfl
      | none =>
        have harith : i + 1 + fu = i + (fu + 1) := by omega
        rw [harith]

/-- C5: corrected.  The trial loop's convergence control: `old_obj` and
`patience_steps` evolve by `convStep` — the counter is incremented exactly
when the fresh objective exceeds the last *recorded* objective (updated only
on a `≥ 1e-6` improvement) by less than `1e-6`, not the previous iteration's
objective — and the loop executes exactly `stop_iters` iterations: it breaks
at the first iteration whose updated patience reaches 15, and otherwise runs
to the cap and returns the last objective without error. -/
theorem C5_patience_amended (objs : ℕ → ℚ) (max_iter : ℕ) (h : 1 ≤ max_iter) :
    frank_wolfe_trial_control objs max_iter =
      (stop_iters objs max_iter, some (objs (stop_iters objs max_iter - 1))) := by
  have h0 : frank_wolfe_trial_control objs max_iter =
      trialGo objs max_iter 0 (convTrace objs 0) (lastObj objs 0) := rfl
  rw [h0, trialGo_spec objs max_iter 0, stop_iters]
  cases hs : stop_search objs 0 max_iter with
  | some j => simp
  | none =>
    rw [Nat.zero_add]
    obtain ⟨k, rfl⟩ : ∃ k, max_iter = k + 1 := ⟨max_iter - 1, by omega⟩
    simp [lastObj]

theorem C5_witness :
    frank_wolfe_trial_control (fun _ => (0 : ℚ)) 1 =
      (stop_iters (fun _ => (0 : ℚ)) 1,
        some ((fun _ => (0 : ℚ)) (stop_iters (fun _ => (0 : ℚ)) 1 - 1))) :=
  C5_patience_amended (fun _ => (0 : ℚ)) 1 (by decide)

/-- C5: counterexample to the claim as stated.  On the objective sequence
`7e-7, 14e-7, 21e-7, ...` the code's convergence state (lines 112-116) resets
the patience counter at the second iteration (the fresh objective beats the
recorded `0.0` by `14e-7 ≥ 1e-6`), while the claim's rule — compare against
the previous iteration's objective, which improved by only `7e-7` — would
increment it to 2. -/
theorem C5_counterexample :
    (convTrace objs_lin 2).2 = 0 ∧ (convTraceClaimed objs_lin 2).2 = 2 := by
  constructor
  · have h1 : convTrace objs_lin 2 =
        convStep (convStep ((0 : ℚ), 0) (objs_lin 0)) (objs_lin 1) := rfl
    rw [h1]
    norm_num [convStep, objs_lin, conv_tol]
  · have h1 : convTraceClaimed objs_lin 2 =
        convStepClaimed (convStepClaimed ((0 : ℚ), 0) (objs_lin 0)) (objs_lin 1) := rfl
    rw [h1]
    norm_num [convStepClaimed, objs_lin, conv_tol]
